import Mathlib

/-!
Shallow embedding of the Hotspot package (src_python/hotspot/__init__.py) and
verification of its specification.

Numpy arrays of floats are modelled as functions out of Fin into the real
numbers; a samples x neighbors table is a function in two Fin arguments.
Fallible indexing is modelled with Option. The scipy sparse-matrix assembly
and the scipy standard-normal survival function are external collaborators of
the package; they are modelled from their documented semantics (spec sections
4.3 and 6).
-/

namespace Hotspot

open Finset MeasureTheory

/-- Mean of a vector: models numpy x.mean(). -/
noncomputable def npMean {n : ℕ} (x : Fin n → ℝ) : ℝ := (∑ j, x j) / n

/-- Sample standard deviation with ddof = 1: models numpy x.std(ddof=1),
the square root of the mean squared deviation with divisor n - 1. -/
noncomputable def npStd {n : ℕ} (x : Fin n → ℝ) : ℝ :=
  Real.sqrt ((∑ j, (x j - npMean x) ^ 2) / ((n : ℝ) - 1))

/-- Row sums of the weight table: W_i = weights.sum(axis=1). -/
noncomputable def W_i {n k : ℕ} (weights : Fin n → Fin k → ℝ) (i : Fin n) : ℝ :=
  ∑ r, weights i r

/-- Row sums of the squared weights: S_1i = (weights**2).sum(axis=1). -/
noncomputable def S_1i {n k : ℕ} (weights : Fin n → Fin k → ℝ) (i : Fin n) : ℝ :=
  ∑ r, (weights i r) ^ 2

/-- The per-sample denominator s * ((n * S_1i - W_i**2) / (n - 1)) ** (1/2)
appearing identically in both Getis-Ord forms of the source
(x ** (1/2) is the square root; n is the number of samples). -/
noncomputable def gi_denom {n k : ℕ} (s : ℝ) (weights : Fin n → Fin k → ℝ) (i : Fin n) : ℝ :=
  s * Real.sqrt (((n : ℝ) * S_1i weights i - (W_i weights i) ^ 2) / ((n : ℝ) - 1))

/-- compute_gi_single from the source: per sample i,
G_i = (num - offset) / denom with num the weighted neighbor sum,
offset = xbar * W_i and denom = s * ((n * S_1i - W_i**2)/(n-1))**(1/2).
The division is unguarded, exactly as in the source. -/
noncomputable def compute_gi_single {n k : ℕ} (x : Fin n → ℝ)
    (neighbors : Fin n → Fin k → Fin n) (weights : Fin n → Fin k → ℝ) : Fin n → ℝ :=
  fun i =>
    let xbar := npMean x
    let s := npStd x
    let denom := gi_denom s weights i
    let offset := xbar * W_i weights i
    let num := ∑ r, x (neighbors i r) * weights i r
    (num - offset) / denom

/-- radius_ii = ceil(distances.shape[1] / neighborhood_factor), from compute_weights. -/
noncomputable def radius_ii (k : ℕ) (neighborhood_factor : ℝ) : ℕ :=
  Nat.ceil ((k : ℝ) / neighborhood_factor)

/-- compute_weights from the source. The bandwidth lookup
distances[:, [radius_ii - 1]] raises IndexError when the index is outside
[0, k); the Option value none models that failure (faithful for
neighborhood_factor > 0, the only regime the spec admits). On success each
raw weight is exp(-1 * d**2 / sigma**2) and each row is divided by its sum,
rows with sum exactly 0 being divided by 1 instead. -/
noncomputable def compute_weights {m k : ℕ} (distances : Fin m → Fin k → ℝ)
    (neighborhood_factor : ℝ) : Option (Fin m → Fin k → ℝ) :=
  if h : 0 < radius_ii k neighborhood_factor ∧ radius_ii k neighborhood_factor - 1 < k then
    let sigma : Fin m → ℝ := fun i => distances i ⟨radius_ii k neighborhood_factor - 1, h.2⟩
    let weights : Fin m → Fin k → ℝ := fun i j =>
      Real.exp (-1 * (distances i j) ^ 2 / (sigma i) ^ 2)
    let wnorm : Fin m → ℝ := fun i => ∑ j, weights i j
    some (fun i j => weights i j / (if wnorm i = 0 then 1 else wnorm i))
  else none

/-- The coordinate triplets emitted by _to_sparse, in ravel (row-major) order:
row indices from np.tile(np.arange(N_CELLS)...).ravel(), column indices
neighbors.ravel(), values weights.ravel(). -/
noncomputable def tripletList {n k : ℕ} (neighbors : Fin n → Fin k → ℕ)
    (weights : Fin n → Fin k → ℝ) : List (ℕ × ℕ × ℝ) :=
  (List.finRange n).flatMap fun i =>
    (List.finRange k).map fun r => (i.val, neighbors i r, weights i r)

/-- Modelled from the spec: scipy.sparse.csr_matrix coordinate assembly is an
external collaborator (spec section 1 keeps library internals out of scope);
per section 4.3 the triplets are assembled into a samples x samples matrix,
summing duplicate (row, col) entries. Entry (i, j) is the sum of the values
of all triplets with coordinates (i, j). -/
noncomputable def csrFromTriplets (ts : List (ℕ × ℕ × ℝ)) (i j : ℕ) : ℝ :=
  (ts.map fun t => if t.1 = i ∧ t.2.1 = j then t.2.2 else 0).sum

/-- _to_sparse from the source: ravel the (row, col, value) triplets and
assemble a csr matrix of shape (N_CELLS, N_CELLS). -/
noncomputable def _to_sparse {n k : ℕ} (neighbors : Fin n → Fin k → ℕ)
    (weights : Fin n → Fin k → ℝ) : Fin n → Fin n → ℝ :=
  fun i j => csrFromTriplets (tripletList neighbors weights) i.val j.val

/-- compute_gi_dataframe after its shape assertions and label alignment:
offset = xbar W_i, denom = s * ((n * S_1i - W_i**2)/(n-1))**(1/2) with zero
entries replaced by 1, and the numerator taken from the sparse product
sparse_weights.dot(x.T).T. -/
noncomputable def compute_gi_dataframe_core {g n k : ℕ} (x : Fin g → Fin n → ℝ)
    (neighbors : Fin n → Fin k → ℕ) (weights : Fin n → Fin k → ℝ) : Fin g → Fin n → ℝ :=
  fun gg i =>
    let xbar := npMean (x gg)
    let s := npStd (x gg)
    let offset := xbar * W_i weights i
    let denomRaw := gi_denom s weights i
    let denom := if denomRaw = 0 then 1 else denomRaw
    let num := ∑ j, _to_sparse neighbors weights i j * x gg j
    (num - offset) / denom

/-- A dense real matrix with explicit dimensions (a pandas DataFrame of
floats, labels dropped). -/
structure RMat where
  rows : ℕ
  cols : ℕ
  entry : Fin rows → Fin cols → ℝ

/-- A dense integer matrix with explicit dimensions (the neighbor-index
DataFrame). -/
structure NMat where
  rows : ℕ
  cols : ℕ
  entry : Fin rows → Fin cols → ℕ

/-- compute_gi_dataframe with its three leading shape assertions: the call
aborts (none) exactly when one of the asserted equalities fails, and
otherwise runs the core computation. -/
noncomputable def compute_gi_dataframe (x : RMat) (neighbors : NMat) (weights : RMat) :
    Option RMat :=
  if h : x.cols = neighbors.rows ∧ x.cols = weights.rows ∧ neighbors.cols = weights.cols then
    some ⟨x.rows, x.cols,
      compute_gi_dataframe_core x.entry
        (fun i r => neighbors.entry (Fin.cast h.1 i) r)
        (fun i r => weights.entry (Fin.cast h.2.1 i) (Fin.cast h.2.2 r))⟩
  else none

/-- First-match association-list lookup: models pandas row selection by label
(DataFrame.loc), returning none for a missing label. -/
def alookup {L : Type} [DecidableEq L] {β : Type} : List (L × β) → L → Option β
  | [], _ => none
  | p :: t, l => if p.1 = l then some p.2 else alookup t l

/-- Row selection by label followed by the core computation: given the two
label-to-row lookup functions, select the row for every column label of x
(pandas loc), abort on a missing label (KeyError), then compute. -/
noncomputable def gi_labeled_via {g n k : ℕ} {L : Type}
    (x : Fin g → Fin n → ℝ) (cols : Fin n → L)
    (fnb : L → Option (Fin k → ℕ)) (fw : L → Option (Fin k → ℝ)) :
    Option (Fin g → Fin n → ℝ) :=
  if h : ∀ i : Fin n, (fnb (cols i)).isSome ∧ (fw (cols i)).isSome then
    some (compute_gi_dataframe_core x
      (fun i r => ((fnb (cols i)).get (h i).1) r)
      (fun i r => ((fw (cols i)).get (h i).2) r))
  else none

/-- compute_gi_dataframe with labeled neighbor and weight tables: the lines
neighbors.loc[x.columns] and weights.loc[x.columns] re-select both tables by
the column labels of x before any computation. -/
noncomputable def compute_gi_dataframe_labeled {g n k : ℕ} {L : Type} [DecidableEq L]
    (x : Fin g → Fin n → ℝ) (cols : Fin n → L)
    (nbL : List (L × (Fin k → ℕ))) (wL : List (L × (Fin k → ℝ))) :
    Option (Fin g → Fin n → ℝ) :=
  gi_labeled_via x cols (alookup nbL) (alookup wL)

/-- Modelled from the spec: the standard-normal survival function norm.sf is
an external collaborator (spec section 6: input a real x, output P(Z > x)
for standard normal Z), here the integral of the standard normal density
over (x, infinity). -/
noncomputable def normSF (x : ℝ) : ℝ :=
  ∫ t in Set.Ioi x, ProbabilityTheory.gaussianPDFReal 0 1 t

/-- gi_to_pval from the source: pvals = norm.sf(G_i.abs()) * 2, elementwise. -/
noncomputable def gi_to_pval {g n : ℕ} (G : Fin g → Fin n → ℝ) : Fin g → Fin n → ℝ :=
  fun gg i => normSF |G gg i| * 2

/-! Concrete example data used by the witness theorems. -/

/-- A 1 x 1 distance matrix with the single distance 1. -/
noncomputable def dEx : Fin 1 → Fin 1 → ℝ := fun _ _ => 1

/-- A length-2 variable vector with a nonzero sample variance. -/
noncomputable def xEx : Fin 2 → ℝ := ![0, 2]

/-- A 2 x 1 neighbor table: each of the two samples has the other as its one
neighbor. -/
def nbEx : Fin 2 → Fin 1 → Fin 2 := ![![1], ![0]]

/-- A 2 x 1 weight table of ones. -/
noncomputable def wEx1 : Fin 2 → Fin 1 → ℝ := fun _ _ => 1

/-- A constant 1 x 2 variable matrix (every sample has value 7). -/
noncomputable def XEx : Fin 1 → Fin 2 → ℝ := fun _ _ => 7

/-- A 1 x 1 Getis-Ord statistic matrix holding 0. -/
noncomputable def GEx : Fin 1 → Fin 1 → ℝ := fun _ _ => 0

/-- A 1 x 1 variable matrix for the label-permutation witness. -/
noncomputable def xEx1 : Fin 1 → Fin 1 → ℝ := fun _ _ => 5

/-- Column labels of xEx1. -/
def colsEx : Fin 1 → ℕ := fun _ => 0

/-- A labeled neighbor table with rows labeled 0 and 1. -/
def nbLEx : List (ℕ × (Fin 1 → ℕ)) := [(0, fun _ => 0), (1, fun _ => 0)]

/-- The same labeled neighbor table with its two rows swapped. -/
def nbLEx2 : List (ℕ × (Fin 1 → ℕ)) := [(1, fun _ => 0), (0, fun _ => 0)]

/-- A labeled weight table with rows labeled 0 and 1. -/
noncomputable def wLEx : List (ℕ × (Fin 1 → ℝ)) := [(0, fun _ => 1), (1, fun _ => 2)]

/-- The same labeled weight table with its two rows swapped. -/
noncomputable def wLEx2 : List (ℕ × (Fin 1 → ℝ)) := [(1, fun _ => 2), (0, fun _ => 1)]

/-! Helper lemmas. -/

lemma list_sum_flatMap {α β : Type} (l : List α) (f : α → List β) (g : β → ℝ) :
    (((l.flatMap f).map g)).sum = (l.map fun a => (((f a).map g)).sum).sum := by
  induction l with
  | nil => simp
  | cons a t ih => simp [List.map_append, List.sum_append, ih]

/-- The assembled sparse entry (i, j) is the sum of weights i r over all ranks
r whose neighbor entry equals j. -/
lemma csrFromTriplets_tripletList {n k : ℕ} (neighbors : Fin n → Fin k → ℕ)
    (weights : Fin n → Fin k → ℝ) (i : Fin n) (j : ℕ) :
    csrFromTriplets (tripletList neighbors weights) i.val j =
      ∑ r, if neighbors i r = j then weights i r else 0 := by
  unfold csrFromTriplets tripletList
  rw [list_sum_flatMap]
  have hinner : ∀ a : Fin n,
      ((((List.finRange k).map fun r => (a.val, neighbors a r, weights a r)).map
        fun t => if t.1 = i.val ∧ t.2.1 = j then t.2.2 else 0)).sum =
      ∑ r, if a.val = i.val ∧ neighbors a r = j then weights a r else 0 := by
    intro a
    rw [List.map_map, Fin.sum_univ_def]
    rfl
  calc ((List.finRange n).map fun a =>
        ((((List.finRange k).map fun r => (a.val, neighbors a r, weights a r)).map
          fun t => if t.1 = i.val ∧ t.2.1 = j then t.2.2 else 0)).sum).sum
      = ∑ a : Fin n, ∑ r, if a.val = i.val ∧ neighbors a r = j then weights a r else 0 := by
        rw [Fin.sum_univ_def]
        exact congrArg List.sum (List.map_congr_left fun a _ => hinner a)
    _ = ∑ r, if neighbors i r = j then weights i r else 0 := by
        rw [Finset.sum_eq_single i]
        · simp
        · intro a _ ha
          have : a.val ≠ i.val := fun hv => ha (Fin.val_injective hv)
          simp [this]
        · simp

/-- Sparse entries of an index-valued neighbor table. -/
lemma to_sparse_entry {n k : ℕ} (neighbors : Fin n → Fin k → Fin n)
    (weights : Fin n → Fin k → ℝ) (i j : Fin n) :
    _to_sparse (fun a b => ((neighbors a b : ℕ))) weights i j =
      ∑ r, if neighbors i r = j then weights i r else 0 := by
  unfold _to_sparse
  rw [csrFromTriplets_tripletList]
  exact Finset.sum_congr rfl fun r _ =>
    if_congr (Fin.val_eq_val (neighbors i r) j) rfl rfl

/-- The batched numerator row agrees with the dense weighted neighbor sum. -/
lemma sparse_num_eq {n k : ℕ} (neighbors : Fin n → Fin k → Fin n)
    (weights : Fin n → Fin k → ℝ) (x : Fin n → ℝ) (i : Fin n) :
    (∑ j, _to_sparse (fun a b => ((neighbors a b : ℕ))) weights i j * x j) =
      ∑ r, x (neighbors i r) * weights i r := by
  have h1 : ∀ j, _to_sparse (fun a b => ((neighbors a b : ℕ))) weights i j * x j =
      ∑ r, if neighbors i r = j then weights i r * x j else 0 := by
    intro j
    rw [to_sparse_entry, Finset.sum_mul]
    exact Finset.sum_congr rfl fun r _ => by rw [ite_mul, zero_mul]
  calc (∑ j, _to_sparse (fun a b => ((neighbors a b : ℕ))) weights i j * x j)
      = ∑ j, ∑ r, if neighbors i r = j then weights i r * x j else 0 :=
        Finset.sum_congr rfl fun j _ => h1 j
    _ = ∑ r, ∑ j, if neighbors i r = j then weights i r * x j else 0 := Finset.sum_comm
    _ = ∑ r, x (neighbors i r) * weights i r := by
        refine Finset.sum_congr rfl fun r _ => ?_
        rw [Finset.sum_ite_eq]
        simp [mul_comm]

/-! Claim theorems. -/

/-- C2: compute_gi_single returns, for each sample i, exactly
(Σ_r weight[i,r] * x[neighbor[i,r]] - xbar * W_i) /
(s * sqrt((n * S1_i - W_i^2)/(n - 1))) with W_i = Σ_r weight[i,r],
S1_i = Σ_r weight[i,r]^2, xbar the mean of x, s the ddof = 1 sample standard
deviation of x and n the number of samples; the equation holds for every
input, so no special case is applied when the denominator is 0. -/
theorem compute_gi_single_closed_form {n k : ℕ} (x : Fin n → ℝ)
    (neighbors : Fin n → Fin k → Fin n) (weights : Fin n → Fin k → ℝ) (i : Fin n) :
    compute_gi_single x neighbors weights i =
      ((∑ r, weights i r * x (neighbors i r)) - npMean x * (∑ r, weights i r)) /
        (npStd x *
          Real.sqrt (((n : ℝ) * (∑ r, (weights i r) ^ 2) - (∑ r, weights i r) ^ 2) /
            ((n : ℝ) - 1))) := by
  simp only [compute_gi_single, gi_denom, W_i, S_1i]
  congr 2
  exact Finset.sum_congr rfl fun r _ => mul_comm _ _

/-- C6: compute_gi_dataframe rejects its input (fails before any computation)
if and only if the sample-count dimensions disagree: the column count of X
differs from the neighbor-table row count, or from the weight-table row
count, or the neighbor and weight tables have different column counts. -/
theorem compute_gi_dataframe_shape_check (x : RMat) (neighbors : NMat) (weights : RMat) :
    compute_gi_dataframe x neighbors weights = none ↔
      ¬(x.cols = neighbors.rows ∧ x.cols = weights.rows ∧
        neighbors.cols = weights.cols) := by
  unfold compute_gi_dataframe
  by_cases h : x.cols = neighbors.rows ∧ x.cols = weights.rows ∧
      neighbors.cols = weights.cols
  · rw [dif_pos h]
    exact iff_of_false (fun hc => Option.noConfusion hc) (fun hc => hc h)
  · rw [dif_neg h]
    exact iff_of_true rfl h

/-- C8: reading back row i of the assembled sparse adjacency gives, at every
column j, the sum of the weights of all ranks whose neighbor entry is j
(duplicate coordinates are summed, never overwritten); when the neighbor
labels in row i are distinct, this reproduces exactly the (neighbor, weight)
pairs of row i: entry weights i r at column neighbors i r, and 0 at every
column that is not a neighbor of i. -/
theorem to_sparse_roundtrip {n k : ℕ} (neighbors : Fin n → Fin k → Fin n)
    (weights : Fin n → Fin k → ℝ) (i : Fin n) :
    (∀ j : Fin n, _to_sparse (fun a b => (neighbors a b : ℕ)) weights i j =
      ∑ r, if neighbors i r = j then weights i r else 0) ∧
    (Function.Injective (neighbors i) →
      (∀ r, _to_sparse (fun a b => (neighbors a b : ℕ)) weights i (neighbors i r) =
        weights i r) ∧
      (∀ j : Fin n, j ∉ Set.range (neighbors i) →
        _to_sparse (fun a b => (neighbors a b : ℕ)) weights i j = 0)) := by
  refine ⟨to_sparse_entry neighbors weights i, fun hinj => ⟨fun r => ?_, fun j hj => ?_⟩⟩
  · rw [to_sparse_entry]
    rw [Finset.sum_eq_single r]
    · simp
    · intro b _ hb
      have : neighbors i b ≠ neighbors i r := fun he => hb (hinj he)
      simp [this]
    · simp
  · rw [to_sparse_entry]
    refine Finset.sum_eq_zero fun r _ => ?_
    have : neighbors i r ≠ j := fun he => hj ⟨r, he⟩
    simp [this]

/-- C8 witness: on the concrete 2 x 1 tables, the assembled sparse row
reproduces the stored pair. -/
theorem to_sparse_roundtrip_witness :
    _to_sparse (fun a b => (nbEx a b : ℕ)) wEx1 0 (nbEx 0 0) = wEx1 0 0 :=
  ((to_sparse_roundtrip nbEx wEx1 0).2 fun a b _ => Subsingleton.elim a b).1 0

/-- C1: on a 1-row variable matrix whose row is x, with identically aligned
neighbor and weight tables, the batched Getis-Ord agrees exactly with the
single-variable form at every sample whose denominator is non-zero. -/
theorem gi_dataframe_row_refines_single {n k : ℕ} (x : Fin n → ℝ)
    (neighbors : Fin n → Fin k → Fin n) (weights : Fin n → Fin k → ℝ) (i : Fin n)
    (h : gi_denom (npStd x) weights i ≠ 0) :
    compute_gi_dataframe_core (fun _ : Fin 1 => x) (fun a b => (neighbors a b : ℕ))
        weights 0 i = compute_gi_single x neighbors weights i := by
  simp only [compute_gi_dataframe_core, compute_gi_single]
  rw [if_neg h, sparse_num_eq]

lemma gi_denom_xEx : gi_denom (npStd xEx) wEx1 0 = Real.sqrt 2 := by
  have hmean : npMean xEx = 1 := by
    simp [npMean, xEx, Fin.sum_univ_two]
  have hstd : npStd xEx = Real.sqrt 2 := by
    unfold npStd
    rw [hmean]
    norm_num [xEx, Fin.sum_univ_two]
  unfold gi_denom W_i S_1i wEx1
  rw [hstd]
  norm_num

/-- C1 witness: the two forms agree on the concrete vector (0, 2) with the
concrete 2 x 1 tables, whose denominator is sqrt 2. -/
theorem gi_dataframe_row_refines_single_witness :
    compute_gi_dataframe_core (fun _ : Fin 1 => xEx) (fun a b => (nbEx a b : ℕ))
        wEx1 0 0 = compute_gi_single xEx nbEx wEx1 0 :=
  gi_dataframe_row_refines_single xEx nbEx wEx1 0
    (by rw [gi_denom_xEx]; positivity)

lemma npMean_const {n : ℕ} (hn : 0 < n) (c : ℝ) : npMean (fun _ : Fin n => c) = c := by
  unfold npMean
  rw [Finset.sum_const, Finset.card_univ, Fintype.card_fin, nsmul_eq_mul]
  have : (n : ℝ) ≠ 0 := Nat.cast_ne_zero.mpr hn.ne.symm
  field_simp

lemma npStd_const {n : ℕ} (hn : 0 < n) (c : ℝ) : npStd (fun _ : Fin n => c) = 0 := by
  unfold npStd
  rw [npMean_const hn c]
  simp

/-- C4: for a variable row of X that is constant across all samples, the raw
batched denominator is 0 at every sample, the batched form (after replacing
the zero denominator by 1) returns the finite value 0 at every sample of that
row, and the single-variable form on the same constant vector divides the
numerator by the zero denominator with no guard. -/
theorem constant_variable_gi {g n k : ℕ} (X : Fin g → Fin n → ℝ)
    (neighbors : Fin n → Fin k → Fin n) (weights : Fin n → Fin k → ℝ)
    (gg : Fin g) (c : ℝ) (hconst : ∀ j, X gg j = c) (i : Fin n) :
    gi_denom (npStd (X gg)) weights i = 0 ∧
    compute_gi_dataframe_core X (fun a b => (neighbors a b : ℕ)) weights gg i = 0 ∧
    compute_gi_single (X gg) neighbors weights i =
      ((∑ r, X gg (neighbors i r) * weights i r) - npMean (X gg) * W_i weights i) / 0 := by
  have hX : X gg = fun _ => c := funext hconst
  have hs : npStd (X gg) = 0 := by rw [hX]; exact npStd_const i.pos c
  have hd : gi_denom (npStd (X gg)) weights i = 0 := by
    rw [hs]
    unfold gi_denom
    exact zero_mul _
  refine ⟨hd, ?_, ?_⟩
  · simp only [compute_gi_dataframe_core]
    rw [if_pos hd, sparse_num_eq, div_one, hX, npMean_const i.pos c]
    unfold W_i
    rw [← Finset.mul_sum]
    ring
  · simp only [compute_gi_single]
    rw [hd]

/-- C4 witness: on the constant 1 x 2 matrix with value 7, the raw batched
denominator is 0, the batched result is 0, and the single form divides by the
zero denominator. -/
theorem constant_variable_gi_witness :
    gi_denom (npStd (XEx 0)) wEx1 0 = 0 ∧
    compute_gi_dataframe_core XEx (fun a b => (nbEx a b : ℕ)) wEx1 0 0 = 0 ∧
    compute_gi_single (XEx 0) nbEx wEx1 0 =
      ((∑ r, XEx 0 (nbEx 0 r) * wEx1 0 r) - npMean (XEx 0) * W_i wEx1 0) / 0 :=
  constant_variable_gi XEx nbEx wEx1 0 7 (fun _ => rfl) 0

/-- C3: on the in-bounds domain, compute_weights uses
radius_index = ceil(n_neighbors / neighborhood_factor), takes each row sigma
as that row distance at rank radius_index (1-indexed, so 0-indexed position
radius_index - 1), gives each neighbor at distance d the raw weight
exp(-d^2 / sigma^2), and divides each row by its raw sum, a row with raw sum
exactly 0 being divided by 1 instead. -/
lemma compute_weights_eq {m k : ℕ} (distances : Fin m → Fin k → ℝ) (f : ℝ)
    (h : 0 < radius_ii k f ∧ radius_ii k f - 1 < k) :
    compute_weights distances f = some (fun i j =>
      Real.exp (-1 * (distances i j) ^ 2 / (distances i ⟨radius_ii k f - 1, h.2⟩) ^ 2) /
        (if (∑ r, Real.exp (-1 * (distances i r) ^ 2 /
              (distances i ⟨radius_ii k f - 1, h.2⟩) ^ 2)) = 0 then 1
         else ∑ r, Real.exp (-1 * (distances i r) ^ 2 /
              (distances i ⟨radius_ii k f - 1, h.2⟩) ^ 2))) := by
  unfold compute_weights
  rw [dif_pos h]

theorem compute_weights_spec {m k : ℕ} (distances : Fin m → Fin k → ℝ) (f : ℝ)
    (h : 0 < radius_ii k f ∧ radius_ii k f - 1 < k) :
    compute_weights distances f = some (fun i j =>
      Real.exp (-(distances i j) ^ 2 / (distances i ⟨radius_ii k f - 1, h.2⟩) ^ 2) /
        (if (∑ r, Real.exp (-(distances i r) ^ 2 /
              (distances i ⟨radius_ii k f - 1, h.2⟩) ^ 2)) = 0 then 1
         else ∑ r, Real.exp (-(distances i r) ^ 2 /
              (distances i ⟨radius_ii k f - 1, h.2⟩) ^ 2))) := by
  rw [compute_weights_eq distances f h]
  simp only [neg_one_mul]

lemma radius_ii_one_three : radius_ii 1 3 = 1 := by
  unfold radius_ii
  rw [show ((1:ℕ):ℝ)/(3:ℝ) = 1/3 by norm_num]
  rw [Nat.ceil_eq_iff one_ne_zero]
  norm_num

lemma radius_lt_ex : radius_ii 1 3 - 1 < 1 := by rw [radius_ii_one_three]; norm_num

lemma radius_pos_ex : 0 < radius_ii 1 3 := by rw [radius_ii_one_three]; norm_num

/-- C3 witness: the closed form evaluated on the concrete 1 x 1 distance
matrix with neighborhood_factor 3. -/
theorem compute_weights_spec_witness :
    compute_weights dEx 3 = some (fun i j =>
      Real.exp (-(dEx i j) ^ 2 / (dEx i ⟨radius_ii 1 3 - 1, radius_lt_ex⟩) ^ 2) /
        (if (∑ r, Real.exp (-(dEx i r) ^ 2 /
              (dEx i ⟨radius_ii 1 3 - 1, radius_lt_ex⟩) ^ 2)) = 0 then 1
         else ∑ r, Real.exp (-(dEx i r) ^ 2 /
              (dEx i ⟨radius_ii 1 3 - 1, radius_lt_ex⟩) ^ 2))) :=
  compute_weights_spec dEx 3 ⟨radius_pos_ex, radius_lt_ex⟩

/-- C5: on the in-bounds domain with per-row positive kernel bandwidth, every
row of the returned weight matrix consists of non-negative weights and sums
to exactly 1 (the all-zero raw row of the claim cannot arise over the reals,
where the exponential is positive; the output shares the shape of the
distance input by construction of the embedding). -/
theorem compute_weights_rows_normalized {m k : ℕ} (distances : Fin m → Fin k → ℝ)
    (f : ℝ) (h : 0 < radius_ii k f ∧ radius_ii k f - 1 < k)
    (hsigma : ∀ i, 0 < distances i ⟨radius_ii k f - 1, h.2⟩)
    (w : Fin m → Fin k → ℝ) (hw : compute_weights distances f = some w) (i : Fin m) :
    (∀ j, 0 ≤ w i j) ∧ (∑ j, w i j) = 1 := by
  have hk : 0 < k := lt_of_le_of_lt (Nat.zero_le _) h.2
  haveI : Nonempty (Fin k) := ⟨⟨0, hk⟩⟩
  rw [compute_weights_eq distances f h] at hw
  obtain rfl := Option.some.inj hw
  have hsum : (0:ℝ) < ∑ r, Real.exp (-1 * (distances i r) ^ 2 /
      (distances i ⟨radius_ii k f - 1, h.2⟩) ^ 2) :=
    Finset.sum_pos (fun r _ => Real.exp_pos _) Finset.univ_nonempty
  have hnn : ∀ (e s : ℝ), 0 < e → 0 < s → 0 ≤ e / (if s = 0 then 1 else s) := by
    intro e s he hs
    rw [if_neg hs.ne.symm]
    exact div_nonneg he.le hs.le
  have hone : ∀ (gf : Fin k → ℝ), (0 < ∑ r, Real.exp (gf r)) →
      (∑ j, Real.exp (gf j) /
        (if (∑ r, Real.exp (gf r)) = 0 then 1 else ∑ r, Real.exp (gf r))) = 1 := by
    intro gf hs
    have : ∀ j ∈ Finset.univ, Real.exp (gf j) /
        (if (∑ r, Real.exp (gf r)) = 0 then 1 else ∑ r, Real.exp (gf r)) =
        Real.exp (gf j) / (∑ r, Real.exp (gf r)) := by
      intro j _
      rw [if_neg hs.ne.symm]
    rw [Finset.sum_congr rfl this, ← Finset.sum_div]
    exact div_self hs.ne.symm
  constructor
  · intro j
    exact hnn _ _ (Real.exp_pos _) hsum
  · exact hone (fun j => -1 * (distances i j) ^ 2 /
      (distances i ⟨radius_ii k f - 1, h.2⟩) ^ 2) hsum

lemma compute_weights_dEx : compute_weights dEx 3 = some (fun _ _ => 1) := by
  rw [compute_weights_eq dEx 3 ⟨radius_pos_ex, radius_lt_ex⟩]
  congr 1
  funext i j
  norm_num [dEx, Fin.sum_univ_one, Real.exp_ne_zero]

/-- C5 witness: the row of the weight matrix computed from the concrete 1 x 1
distance matrix is non-negative and sums to 1. -/
theorem compute_weights_rows_normalized_witness :
    (∀ j, (0:ℝ) ≤ (fun (_ : Fin 1) (_ : Fin 1) => (1:ℝ)) 0 j) ∧
      (∑ j, (fun (_ : Fin 1) (_ : Fin 1) => (1:ℝ)) 0 j) = 1 :=
  compute_weights_rows_normalized dEx 3 ⟨radius_pos_ex, radius_lt_ex⟩
    (fun _ => one_pos) _ compute_weights_dEx 0

/-- C7 counterexample: with n_neighbors = 1 and the positive
neighborhood_factor 1/2, the bandwidth lookup index
ceil(n_neighbors / neighborhood_factor) - 1 = 1 is out of bounds and
compute_weights fails, refuting the claim that every
neighborhood_factor > 0 is safe. -/
theorem compute_weights_fails_factor_below_one :
    (0:ℝ) < 1/2 ∧ (1:ℕ) ≥ 1 ∧ compute_weights dEx (1/2) = none := by
  refine ⟨by norm_num, le_refl 1, ?_⟩
  unfold compute_weights
  rw [dif_neg]
  intro hc
  have h2 : radius_ii 1 (1/2 : ℝ) = 2 := by
    unfold radius_ii
    rw [show ((1:ℕ):ℝ)/(1/2 : ℝ) = ((2:ℕ):ℝ) by norm_num]
    exact Nat.ceil_natCast 2
  rw [h2] at hc
  exact absurd hc.2 (by norm_num)

/-- C7 amended: for every distance matrix with n_neighbors at least 1 and
every neighborhood_factor at least 1 (rather than merely positive), the
bandwidth lookup at index ceil(n_neighbors / neighborhood_factor) - 1 is in
bounds and compute_weights succeeds. -/
theorem compute_weights_isSome_of_factor_ge_one {m k : ℕ} (distances : Fin m → Fin k → ℝ)
    (f : ℝ) (hk : 1 ≤ k) (hf : 1 ≤ f) :
    (compute_weights distances f).isSome := by
  have hfpos : (0:ℝ) < f := lt_of_lt_of_le one_pos hf
  have hkpos : (0:ℝ) < (k:ℝ) := by exact_mod_cast hk
  have h1 : 0 < radius_ii k f := Nat.ceil_pos.mpr (div_pos hkpos hfpos)
  have h2 : radius_ii k f ≤ k := by
    unfold radius_ii
    calc Nat.ceil ((k:ℝ)/f) ≤ Nat.ceil ((k:ℝ)) := Nat.ceil_mono (div_le_self hkpos.le hf)
      _ = k := Nat.ceil_natCast k
  have h3 : radius_ii k f - 1 < k := by omega
  unfold compute_weights
  rw [dif_pos ⟨h1, h3⟩]
  rfl

/-- C7 amended witness: compute_weights succeeds on the concrete 1 x 1
distance matrix with neighborhood_factor 3. -/
theorem compute_weights_isSome_witness : (compute_weights dEx 3).isSome :=
  compute_weights_isSome_of_factor_ge_one dEx 3 (le_refl 1) (by norm_num)

lemma alookup_cons {L : Type} [DecidableEq L] {β : Type} (p : L × β) (t : List (L × β))
    (l : L) : alookup (p :: t) l = if p.1 = l then some p.2 else alookup t l := rfl

/-- First-match lookup is invariant under permutation of an association list
with pairwise distinct keys. -/
lemma alookup_perm {L : Type} [DecidableEq L] {β : Type} {l1 l2 : List (L × β)}
    (p : l1.Perm l2) :
    (l1.map Prod.fst).Nodup → ∀ a, alookup l1 a = alookup l2 a := by
  induction p with
  | nil => exact fun _ _ => rfl
  | cons x p ih =>
      intro nd a
      simp only [List.map_cons, List.nodup_cons] at nd
      rw [alookup_cons, alookup_cons]
      by_cases hx : x.1 = a
      · rw [if_pos hx, if_pos hx]
      · rw [if_neg hx, if_neg hx]
        exact ih nd.2 a
  | swap x y l =>
      intro nd a
      have hxy : y.1 ≠ x.1 := by
        simp only [List.map_cons, List.nodup_cons, List.mem_cons] at nd
        exact fun he => nd.1 (Or.inl he)
      simp only [alookup_cons]
      by_cases h1 : y.1 = a <;> by_cases h2 : x.1 = a
      · exact absurd (h1.trans h2.symm) hxy
      · simp [h1, h2]
      · simp [h1, h2]
      · simp [h1, h2]
  | trans p1 p2 ih1 ih2 =>
      intro nd a
      exact (ih1 nd a).trans (ih2 ((p1.map Prod.fst).nodup_iff.mp nd) a)

/-- C10: for labeled neighbor and weight tables with pairwise distinct row
labels, permuting the rows of both tables (each row keeping its label and
contents) does not change the output of the labeled batched computation,
because both tables are re-selected by the column labels of x before any
computation. -/
theorem gi_dataframe_label_perm_invariant {g n k : ℕ} {L : Type} [DecidableEq L]
    (x : Fin g → Fin n → ℝ) (cols : Fin n → L)
    (nbL nbL2 : List (L × (Fin k → ℕ))) (wL wL2 : List (L × (Fin k → ℝ)))
    (hnb : (nbL.map Prod.fst).Nodup) (hw : (wL.map Prod.fst).Nodup)
    (pnb : nbL.Perm nbL2) (pw : wL.Perm wL2) :
    compute_gi_dataframe_labeled x cols nbL wL =
      compute_gi_dataframe_labeled x cols nbL2 wL2 := by
  unfold compute_gi_dataframe_labeled
  exact congrArg₂ (gi_labeled_via x cols)
    (funext (alookup_perm pnb hnb)) (funext (alookup_perm pw hw))

/-- C10 witness: swapping the two labeled rows of the concrete neighbor and
weight tables leaves the labeled batched output unchanged. -/
theorem gi_dataframe_label_perm_invariant_witness :
    compute_gi_dataframe_labeled xEx1 colsEx nbLEx wLEx =
      compute_gi_dataframe_labeled xEx1 colsEx nbLEx2 wLEx2 :=
  gi_dataframe_label_perm_invariant xEx1 colsEx nbLEx nbLEx2 wLEx wLEx2
    (by decide) (by decide)
    (by unfold nbLEx nbLEx2; exact List.Perm.swap _ _ _)
    (by unfold wLEx wLEx2; exact List.Perm.swap _ _ _)

lemma gaussianPDFReal_even (x : ℝ) :
    ProbabilityTheory.gaussianPDFReal 0 1 (-x) = ProbabilityTheory.gaussianPDFReal 0 1 x := by
  simp [ProbabilityTheory.gaussianPDFReal, neg_sq]

lemma normSF_nonneg (x : ℝ) : 0 ≤ normSF x :=
  setIntegral_nonneg measurableSet_Ioi fun t _ =>
    ProbabilityTheory.gaussianPDFReal_nonneg 0 1 t

lemma normSF_antitone {x y : ℝ} (hxy : x ≤ y) : normSF y ≤ normSF x :=
  setIntegral_mono_set (ProbabilityTheory.integrable_gaussianPDFReal 0 1).integrableOn
    (ae_of_all _ fun t => ProbabilityTheory.gaussianPDFReal_nonneg 0 1 t)
    ((Set.Ioi_subset_Ioi hxy).eventuallyLE)

lemma normSF_zero : normSF 0 = 1 / 2 := by
  have hint : Integrable (ProbabilityTheory.gaussianPDFReal 0 1) :=
    ProbabilityTheory.integrable_gaussianPDFReal 0 1
  have htot : (∫ t in Set.Iic (0:ℝ), ProbabilityTheory.gaussianPDFReal 0 1 t) +
      (∫ t in Set.Ioi (0:ℝ), ProbabilityTheory.gaussianPDFReal 0 1 t) = 1 := by
    rw [intervalIntegral.integral_Iic_add_Ioi hint.integrableOn hint.integrableOn]
    exact ProbabilityTheory.integral_gaussianPDFReal_eq_one 0 one_ne_zero
  have h1 : (∫ t in Set.Ioi (0:ℝ), ProbabilityTheory.gaussianPDFReal 0 1 (-t)) =
      ∫ t in Set.Iic (-(0:ℝ)), ProbabilityTheory.gaussianPDFReal 0 1 t :=
    integral_comp_neg_Ioi 0 (ProbabilityTheory.gaussianPDFReal 0 1)
  simp only [gaussianPDFReal_even, neg_zero] at h1
  unfold normSF
  linarith

lemma normSF_le_half {x : ℝ} (hx : 0 ≤ x) : normSF x ≤ 1 / 2 :=
  normSF_zero ▸ normSF_antitone hx

/-- C9: every entry of the gi_to_pval output equals twice the standard-normal
survival function of the absolute statistic, lies in [0, 1], and is
monotonically non-increasing in the absolute statistic: an entry with larger
absolute G_i has a p-value no larger than one with smaller absolute G_i. -/
theorem gi_to_pval_spec {g n : ℕ} (G : Fin g → Fin n → ℝ) (gg : Fin g) (i : Fin n) :
    gi_to_pval G gg i = 2 * normSF |G gg i| ∧
    0 ≤ gi_to_pval G gg i ∧ gi_to_pval G gg i ≤ 1 ∧
    ∀ (gg2 : Fin g) (i2 : Fin n), |G gg i| ≤ |G gg2 i2| →
      gi_to_pval G gg2 i2 ≤ gi_to_pval G gg i := by
  refine ⟨mul_comm _ _, ?_, ?_, ?_⟩
  · exact mul_nonneg (normSF_nonneg _) (by norm_num)
  · have := normSF_le_half (abs_nonneg (G gg i))
    unfold gi_to_pval
    linarith
  · intro gg2 i2 hle
    have := normSF_antitone hle
    unfold gi_to_pval
    linarith

/-- C9 witness: on the concrete zero statistic matrix, the p-value is within
[0, 1] and the monotonicity comparison holds at equal absolute statistics. -/
theorem gi_to_pval_spec_witness :
    0 ≤ gi_to_pval GEx 0 0 ∧ gi_to_pval GEx 0 0 ≤ 1 ∧
      gi_to_pval GEx 0 0 ≤ gi_to_pval GEx 0 0 :=
  ⟨(gi_to_pval_spec GEx 0 0).2.1, (gi_to_pval_spec GEx 0 0).2.2.1,
    (gi_to_pval_spec GEx 0 0).2.2.2 0 0 le_rfl⟩

end Hotspot
